import Mathlib

/-!
A verification development for the SecretSanta repository.

The repository has two executable sources: the browser-side utility module
`public/shared-utils.js` (deterministic RSA keypair derivation, OAEP
decryption, registration and login flows) and the Express server
(room lifecycle: create, register, remove-participant, start, login).

This file gives a shallow embedding of those sources in Lean:
JavaScript strings become `String` (viewed through their `List Char`
data where character-level operations occur), JSON response bodies
become either flat field lists over `JV` or per-endpoint inductive
types transcribing the exact `res.json` literals, thrown-and-caught
exceptions become `Except`/`Option` values, and the in-memory room
record becomes the `Room` structure.  Third-party library primitives
(CryptoJS PBKDF2, node-forge RSA key generation, SHA-256 from the
node `crypto` module) are not part of the repository; they are
embedded as explicit function parameters, so every theorem quantifies
over them.  Pieces of the repository that are documented but whose
code is not present (the host-side derangement generator, the
encryption half of the OAEP protocol) are modelled from the
specification and carry a doc comment saying so.
-/

/-! ## JavaScript string helpers (server.js validation section) -/

/-- The character class removed by `sanitizeString`'s
`replace(/[<>"'&]/g, '')`: the five characters `<`, `>`, double
quote (codepoint 34), single quote (codepoint 39) and `&`. -/
def badChar (c : Char) : Bool :=
  c = '<' || c = '>' || c = Char.ofNat 34 || c = Char.ofNat 39 || c = '&'

/-- Left trim on character lists: drop leading whitespace. -/
def trimLeftChars (l : List Char) : List Char :=
  l.dropWhile Char.isWhitespace

/-- Embedding of JavaScript `String.prototype.trim()`: drop leading and
trailing whitespace (Lean's `Char.isWhitespace` stands in for the
JavaScript whitespace class). -/
def trimChars (l : List Char) : List Char :=
  ((trimLeftChars l.reverse).reverse).dropWhile Char.isWhitespace

/-- Embedding of server.js `sanitizeString(str, maxLength)`:
`str.trim().slice(0, maxLength).replace(/[<>"'&]/g, '')`.
The JavaScript `typeof` guard is made unnecessary by typing.
`slice` counts UTF-16 units and Lean counts characters; the two agree
on the strings this model ranges over. -/
def sanitizeString (s : String) (maxLength : Nat) : String :=
  ⟨((trimChars s.data).take maxLength).filter (fun c => !badChar c)⟩

/-- Embedding of server.js `validateUsername`: sanitize with maximum
length 50 and reject results shorter than 2 characters (the JavaScript
`!sanitized` disjunct is subsumed by the length test).  A `throw`
becomes an `Except.error` carrying the thrown message. -/
def validateUsername (username : String) : Except String String :=
  let sanitized := sanitizeString username 50
  if sanitized.data.length < 2 then
    .error "Username must be at least 2 characters"
  else
    .ok sanitized

/-- Embedding of server.js `validatePassword`: reject passwords shorter
than 4 characters, otherwise return the password unchanged. -/
def validatePassword (password : String) : Except String String :=
  if password.data.length < 4 then
    .error "Password must be at least 4 characters"
  else
    .ok password

/-! ## Server data model (server.js in-memory room record)

`hashPassword` in server.js is `crypto.createHash('sha256')...`; the
node `crypto` library is outside the repository, so every handler
takes the hash as an explicit `String → String` parameter, and
`verifyPassword(password, hash)` is the comparison
`hashPassword(password) === hash`. -/

/-- A participant record exactly as the server stores it:
`{username, passwordHash, encryptedAssignment}` (see the room-map
comment in server.js and the `participants.push` calls).  The
`encryptedAssignment` field is `null` until the room starts. -/
structure Participant where
  username : String
  passwordHash : String
  encryptedAssignment : Option String
deriving DecidableEq, Repr

/-- A room record as held in the server's `rooms` map:
`{id, name, hostUsername, hostLoginHash, participants, status, createdAt}`
with `status` one of the strings `"open"` or `"started"`. -/
structure Room where
  id : String
  name : String
  hostUsername : String
  hostLoginHash : String
  participants : List Participant
  status : String
  createdAt : String
deriving DecidableEq, Repr

/-- A flat JSON value as used in the bodies the login endpoint sends:
a string, a boolean, or `null`. -/
inductive JV where
  | s (v : String)
  | b (v : Bool)
  | null
deriving DecidableEq, Repr

/-- A JSON `null`-or-string value, as produced for the possibly-`null`
`encryptedAssignment` field. -/
def optJV : Option String → JV
  | none => JV.null
  | some v => JV.s v

/-! ## POST /api/rooms/:id/login (server.js)

The handler never mutates the room, so its embedding returns only the
response: an HTTP status code paired with the flat JSON body literally
transcribed from each `res.json` call. -/

/-- Embedding of the login endpoint.  Branches in source order:
missing credentials, participant lookup by the raw submitted username
(strict `===`), password verification, room-status check, success.
The room-lookup 404 (`rooms.get`) is handled outside this per-room
function. -/
def loginRoute (hash : String → String) (room : Room)
    (username password : String) : Nat × List (String × JV) :=
  if username = "" ∨ password = "" then
    (400, [("error", JV.s "Username and password are required")])
  else
    match room.participants.find? (fun p => p.username = username) with
    | none => (404, [("error", JV.s "User not found in this room")])
    | some participant =>
      if hash password ≠ participant.passwordHash then
        (401, [("error", JV.s "Invalid password")])
      else if room.status ≠ "started" then
        (400, [("error", JV.s "Room has not started yet"),
               ("roomStatus", JV.s room.status)])
      else
        (200, [("success", JV.b true),
               ("username", JV.s participant.username),
               ("roomName", JV.s room.name),
               ("encryptedAssignment", optJV participant.encryptedAssignment)])

/-! ## POST /api/rooms/:id/register (server.js) -/

/-- The request body the client's `registerUser` sends to the register
endpoint: `{username, password, publicKey, keySalt}`.  The server-side
destructuring `const { username, password } = req.body` reads only the
first two fields. -/
structure RegisterReq where
  username : String
  password : String
  publicKey : String
  keySalt : String
deriving DecidableEq, Repr

/-- The `roomDetails` object of the host-authentication branch of the
register endpoint: `{id, name, hostUsername, participants, status}`
with participants projected to their usernames
(`participants.map(p => ({username: p.username}))`). -/
structure RoomDetailsHost where
  id : String
  name : String
  hostUsername : String
  participants : List String
  status : String
deriving DecidableEq, Repr

/-- The `roomDetails` object of the already-registered branch of the
register endpoint, which omits `hostUsername`. -/
structure RoomDetailsMember where
  id : String
  name : String
  participants : List String
  status : String
deriving DecidableEq, Repr

/-- The possible responses of the register endpoint, one constructor
per `res.json` literal.  Error responses are
`res.status(code).json({error: msg})`; the three success shapes carry
the constant fields (`success`, `isHost`, `alreadyRegistered`,
`message`) implicitly in the constructor. -/
inductive RegisterResp where
  | err (code : Nat) (msg : String)
  | hostAuthed (username : String) (details : RoomDetailsHost)
  | signedIn (username : String) (details : RoomDetailsMember)
  | registered (username : String)
deriving DecidableEq, Repr

/-- Embedding of the register endpoint.  Branches in source order:
missing credentials, started-room rejection, input validation
(`validateUsername` then `validatePassword`, thrown errors surfacing
as a 400 with the thrown message), host self-authentication, existing
participant (wrong password or sign-back-in), and finally the push of
the new participant record `{username, passwordHash,
encryptedAssignment: null}` — note that the submitted `publicKey` and
`keySalt` are never read. -/
def registerRoute (hash : String → String) (room : Room)
    (req : RegisterReq) : RegisterResp × Room :=
  if req.username = "" ∨ req.password = "" then
    (.err 400 "Username and password are required", room)
  else if room.status = "started" then
    (.err 400 "Room has already started. Registration is closed.", room)
  else
    match validateUsername req.username, validatePassword req.password with
    | .error m, _ => (.err 400 m, room)
    | .ok _, .error m => (.err 400 m, room)
    | .ok su, .ok _ =>
      if hash (su ++ req.password) = room.hostLoginHash then
        (.hostAuthed su ⟨room.id, room.name, room.hostUsername,
            room.participants.map (·.username), room.status⟩, room)
      else
        match room.participants.find? (fun p => p.username = su) with
        | some p =>
          if hash req.password ≠ p.passwordHash then
            (.err 401 "Invalid password for this username", room)
          else
            (.signedIn su ⟨room.id, room.name,
                room.participants.map (·.username), room.status⟩, room)
        | none =>
          (.registered su,
           { room with participants :=
               room.participants ++ [⟨su, hash req.password, none⟩] })

/-! ## POST /api/rooms/:id/start (server.js) -/

/-- The request body of the start endpoint:
`{hostUsername, hostPassword, encryptedAssignments}` where
`encryptedAssignments` is a list of `{username, encryptedAssignment}`
pairs (modelled as `String × String` pairs).  The list is `Option`al
because the JavaScript `!encryptedAssignments` test distinguishes a
missing field from a present (possibly empty) array. -/
structure StartReq where
  hostUsername : String
  hostPassword : String
  encryptedAssignments : Option (List (String × String))
deriving DecidableEq, Repr

/-- The possible responses of the start endpoint: error literals and
the success literal `{success: true, message: 'Room started
successfully', status: room.status}`. -/
inductive StartResp where
  | err (code : Nat) (msg : String)
  | ok (status : String)
deriving DecidableEq, Repr

/-- One step of the `encryptedAssignments.forEach` body: find the
first participant with the given username and overwrite its
`encryptedAssignment`; entries naming no participant are ignored. -/
def setAssignment : List Participant → String → String → List Participant
  | [], _, _ => []
  | p :: rest, u, ct =>
    if p.username = u then { p with encryptedAssignment := some ct } :: rest
    else p :: setAssignment rest u ct

/-- The whole `forEach` loop over the submitted assignment list. -/
def stampAssignments (ps : List Participant)
    (eas : List (String × String)) : List Participant :=
  eas.foldl (fun acc e => setAssignment acc e.1 e.2) ps

/-- Embedding of the start endpoint.  Branches in source order:
missing fields, host authentication, started-room rejection,
minimum-participant check, then the stamping loop followed by the
status flip `room.status = 'started'` within the same handler
invocation. -/
def startRoute (hash : String → String) (room : Room)
    (req : StartReq) : StartResp × Room :=
  if req.hostUsername = "" ∨ req.hostPassword = "" ∨
      req.encryptedAssignments = none then
    (.err 400 "Host username, password and encrypted assignments are required",
     room)
  else if hash (req.hostUsername ++ req.hostPassword) ≠ room.hostLoginHash then
    (.err 401 "Invalid host credentials", room)
  else if room.status = "started" then
    (.err 400 "Room has already started", room)
  else if room.participants.length < 2 then
    (.err 400 "At least 2 participants are required", room)
  else
    match req.encryptedAssignments with
    | none =>
      (.err 400 "Host username, password and encrypted assignments are required",
       room)
    | some eas =>
      (.ok "started",
       { room with participants := stampAssignments room.participants eas,
                   status := "started" })

/-! ## POST /api/rooms/:id/remove-participant (server.js) -/

/-- The request body of the remove-participant endpoint. -/
structure RemoveReq where
  hostUsername : String
  hostPassword : String
  username : String
deriving DecidableEq, Repr

/-- The possible responses of the remove-participant endpoint. -/
inductive RemoveResp where
  | err (code : Nat) (msg : String)
  | ok (participants : List String)
deriving DecidableEq, Repr

/-- Embedding of the remove-participant endpoint.  Branches in source
order: missing fields, host authentication, started-room rejection,
then the filter `participants.filter(p => p.username !== username)`
with a 404 when nothing was removed (the filtered list then coincides
with the original, so the room is returned unchanged in both exits). -/
def removeParticipantRoute (hash : String → String) (room : Room)
    (req : RemoveReq) : RemoveResp × Room :=
  if req.hostUsername = "" ∨ req.hostPassword = "" ∨ req.username = "" then
    (.err 400 "Host username, password and participant username are required",
     room)
  else if hash (req.hostUsername ++ req.hostPassword) ≠ room.hostLoginHash then
    (.err 401 "Invalid host credentials", room)
  else if room.status = "started" then
    (.err 400 "Cannot remove participants after room has started", room)
  else
    let filtered := room.participants.filter (fun p => p.username ≠ req.username)
    if filtered.length = room.participants.length then
      (.err 404 "Participant not found",
       { room with participants := filtered })
    else
      (.ok (filtered.map (·.username)),
       { room with participants := filtered })

/-! ## Client-side key derivation (public/shared-utils.js)

`deriveKeyPairFromPassword` concatenates username, password and roomId
with no delimiter, stretches the result with
`CryptoJS.PBKDF2(seed, keySalt, {keySize: 512/32, iterations: 100000})`,
turns the hex digest into bytes, and feeds those bytes as the sole
seed of a `forge.random.createInstance()` whose `seedFileSync` is
overridden to return exactly those bytes, before calling
`forge.pki.rsa.generateKeyPair({bits: 2048, prng, workers: 0})`.
With the seed callback overridden and `workers: 0` the forge prime
search is a deterministic function of the seed bytes, so the two
library calls are embedded as pure function parameters. -/

/-- A derived keypair as returned by `forge.pki.rsa.generateKeyPair`:
a public half and a private half, with representation types left
abstract. -/
structure ForgeKeyPair (PK SK : Type) where
  publicKey : PK
  privateKey : SK
deriving DecidableEq, Repr

/-- The two third-party primitives `deriveKeyPairFromPassword` calls,
as pure functions: `pbkdf2Hex seed salt keySizeWords iterations` is
the hex digest of `CryptoJS.PBKDF2`, `hexToBytes` is
`forge.util.hexToBytes`, and `generateKeyPairFromSeed bits seedBytes`
is the forge RSA key generation driven by the deterministic PRNG
seeded with `seedBytes`. -/
structure ForgePrimitives (PK SK : Type) where
  pbkdf2Hex : String → String → Nat → Nat → String
  hexToBytes : String → List Nat
  generateKeyPairFromSeed : Nat → List Nat → ForgeKeyPair PK SK

/-- Embedding of `deriveKeyPairFromPassword(username, password,
roomId, keySalt)` from public/shared-utils.js lines 106 to 125. -/
def deriveKeyPairFromPassword {PK SK : Type} (F : ForgePrimitives PK SK)
    (username password roomId keySalt : String) : ForgeKeyPair PK SK :=
  let seed := username ++ password ++ roomId
  let keyMaterial := F.pbkdf2Hex seed keySalt (512 / 32) 100000
  let seedBytes := F.hexToBytes keyMaterial
  F.generateKeyPairFromSeed 2048 seedBytes

/-! ## Derangement generator

Modelled from the spec: the host-side assignment code (room.html) is
not among the repository files provided, so the generator is built
from the algorithm of spec section 4.3: an in-place Fisher-Yates
shuffle (for index i from last down to 1, swap with an index chosen
in [0, i]), a positional fixed-point check against the input order, a
rejection-sampling retry, and a 10000-retry cap whose exhaustion is
the `DerangementUnreachable` failure (here `none`).  Randomness is an
explicit parameter: `rand attempt i` is the raw random number drawn
for index `i` of a given attempt, reduced modulo `i + 1`. -/

/-- Modelled from the spec: swap the entries at positions `i` and `j`;
out-of-range positions leave the list unchanged. -/
def swapIdx {α : Type} (l : List α) (i j : Nat) : List α :=
  match l[i]?, l[j]? with
  | some a, some b => (l.set i b).set j a
  | _, _ => l

/-- Putting a stored element back on top of a set is a permutation:
if position `k` of `t` holds `b`, then `b :: t.set k x` is a
rearrangement of `x :: t`. -/
theorem cons_set_perm {α : Type} :
    ∀ (t : List α) (k : Nat) (x b : α), t[k]? = some b →
      (b :: t.set k x).Perm (x :: t)
  | [], k, _, _, h => by simp at h
  | y :: s, 0, x, b, h => by
    have hyb : y = b := by simpa using h
    subst hyb
    simpa using List.Perm.swap x y s
  | y :: s, k + 1, x, b, h => by
    simp only [List.getElem?_cons_succ] at h
    have h1 : (b :: (y :: s).set (k + 1) x) = b :: y :: s.set k x := by simp
    rw [h1]
    exact (List.Perm.swap y b (s.set k x)).trans
      (((cons_set_perm s k x b h).cons y).trans (List.Perm.swap x y s))

/-- A two-sided `set` exchange of stored elements is a permutation. -/
theorem set_set_perm {α : Type} :
    ∀ (l : List α) (i j : Nat) (a b : α),
      l[i]? = some a → l[j]? = some b → ((l.set i b).set j a).Perm l
  | [], i, _, _, _, hi, _ => by simp at hi
  | x :: t, 0, 0, a, b, hi, hj => by
    simp only [List.getElem?_cons_zero, Option.some.injEq] at hi hj
    subst hi; subst hj
    simp
  | x :: t, 0, j + 1, a, b, hi, hj => by
    have hxa : x = a := by simpa using hi
    simp only [List.getElem?_cons_succ] at hj
    subst hxa
    simpa using cons_set_perm t j x b hj
  | x :: t, i + 1, 0, a, b, hi, hj => by
    have hxb : x = b := by simpa using hj
    simp only [List.getElem?_cons_succ] at hi
    subst hxb
    simpa using cons_set_perm t i x a hi
  | x :: t, i + 1, j + 1, a, b, hi, hj => by
    simp only [List.getElem?_cons_succ] at hi hj
    simpa using (set_set_perm t i j a b hi hj).cons x

/-- `swapIdx` permutes its input. -/
theorem swapIdx_perm {α : Type} (l : List α) (i j : Nat) :
    (swapIdx l i j).Perm l := by
  unfold swapIdx
  match h1 : l[i]?, h2 : l[j]? with
  | some a, some b => exact set_set_perm l i j a b h1 h2
  | some _, none => exact List.Perm.refl l
  | none, _ => exact List.Perm.refl l

/-- Modelled from the spec: the descending swap loop of the
Fisher-Yates shuffle, from index `i` down to index 1. -/
def fyLoop {α : Type} (rand : Nat → Nat) : Nat → List α → List α
  | 0, l => l
  | i + 1, l => fyLoop rand i (swapIdx l (i + 1) (rand (i + 1) % (i + 2)))

/-- Modelled from the spec: a full Fisher-Yates pass over the list. -/
def fisherYates {α : Type} (rand : Nat → Nat) (l : List α) : List α :=
  fyLoop rand (l.length - 1) l

/-- The swap loop permutes its input. -/
theorem fyLoop_perm {α : Type} (rand : Nat → Nat) :
    ∀ (i : Nat) (l : List α), (fyLoop rand i l).Perm l
  | 0, l => List.Perm.refl l
  | i + 1, l =>
    (fyLoop_perm rand i _).trans (swapIdx_perm l (i + 1) (rand (i + 1) % (i + 2)))

/-- The Fisher-Yates shuffle permutes its input. -/
theorem fisherYates_perm {α : Type} (rand : Nat → Nat) (l : List α) :
    (fisherYates rand l).Perm l :=
  fyLoop_perm rand (l.length - 1) l

/-- Modelled from the spec: does any position of the shuffled list map
a participant to themself (positional comparison against the original
order)? -/
def hasFixedPoint {α : Type} [DecidableEq α] : List α → List α → Bool
  | x :: xs, y :: ys => x = y || hasFixedPoint xs ys
  | _, _ => false

/-- A shuffle passing the fixed-point check differs from the original
at every common position. -/
theorem hasFixedPoint_eq_false {α : Type} [DecidableEq α] :
    ∀ (xs ys : List α), hasFixedPoint xs ys = false →
      ∀ i, i < xs.length → i < ys.length → xs[i]? ≠ ys[i]?
  | [], _, _, i, hi, _ => by simp at hi
  | _ :: _, [], _, i, _, hi => by simp at hi
  | x :: xs, y :: ys, h, 0, _, _ => by
    simp only [hasFixedPoint, Bool.or_eq_false_iff, decide_eq_false_iff_not] at h
    simpa using h.1
  | x :: xs, y :: ys, h, i + 1, hi, hi' => by
    simp only [hasFixedPoint, Bool.or_eq_false_iff] at h
    simpa using hasFixedPoint_eq_false xs ys h.2 i
      (by simpa using hi) (by simpa using hi')

/-- Modelled from the spec: the rejection-sampling loop, shuffling and
re-checking until a derangement appears or the retry budget runs out. -/
def assignAux {α : Type} [DecidableEq α] (l : List α)
    (rand : Nat → Nat → Nat) : Nat → Option (List α)
  | 0 => none
  | fuel + 1 =>
    let s := fisherYates (rand fuel) l
    if hasFixedPoint l s then assignAux l rand fuel else some s

/-- Modelled from the spec: the derangement generator with its
10000-attempt defensive cap. -/
def assign {α : Type} [DecidableEq α] (l : List α)
    (rand : Nat → Nat → Nat) : Option (List α) :=
  assignAux l rand 10000

/-- Any successful output of the retry loop is a fixed-point-free
permutation of the input. -/
theorem assignAux_spec {α : Type} [DecidableEq α] (l : List α)
    (rand : Nat → Nat → Nat) :
    ∀ (fuel : Nat) (out : List α), assignAux l rand fuel = some out →
      out.Perm l ∧ hasFixedPoint l out = false
  | 0, out, h => by simp [assignAux] at h
  | fuel + 1, out, h => by
    simp only [assignAux] at h
    by_cases hf : hasFixedPoint l (fisherYates (rand fuel) l)
    · rw [if_pos hf] at h
      exact assignAux_spec l rand fuel out h
    · rw [if_neg hf] at h
      cases h
      exact ⟨fisherYates_perm (rand fuel) l, by simpa using hf⟩

/-! ## Base64 transport encoding

Modelled from the spec: ciphertexts cross the boundary as
"base64-encoded bytes" (spec section 6); the `forge.util.encode64` /
`forge.util.decode64` pair used by the client is library code outside
the repository, so the standard base64 coding is modelled here: 3-byte
groups become 4 alphabet characters, with `=`-padded 2- and 3-character
tails for 1- and 2-byte remainders, and decoding rejects malformed
input with `none`. -/

/-- The base64 alphabet, index 0 to 63. -/
def base64Alphabet : List Char :=
  "ABCDEFGHIJKLMNOPQRSTUVWXYZabcdefghijklmnopqrstuvwxyz0123456789+/".data

/-- Map a sextet (0 to 63) to its alphabet character. -/
def encodeSextet (n : Nat) : Char :=
  base64Alphabet.getD n '?'

/-- Map an alphabet character back to its sextet; `none` for
characters outside the alphabet (including `=`). -/
def decodeChar (c : Char) : Option Nat :=
  base64Alphabet.indexOf? c

/-- Decoding inverts encoding on every sextet. -/
theorem decodeChar_encodeSextet : ∀ n, n < 64 → decodeChar (encodeSextet n) = some n := by
  decide

/-- No sextet encodes to the padding character. -/
theorem encodeSextet_ne_pad : ∀ n, n < 64 → encodeSextet n ≠ '=' := by
  decide

/-- Modelled from the spec: base64 encoding of a byte list. -/
def encode64Bytes : List Nat → List Char
  | [] => []
  | [a] => [encodeSextet (a / 4), encodeSextet (a % 4 * 16), '=', '=']
  | [a, b] => [encodeSextet (a / 4), encodeSextet (a % 4 * 16 + b / 16),
               encodeSextet (b % 16 * 4), '=']
  | a :: b :: c :: rest =>
    encodeSextet (a / 4) :: encodeSextet (a % 4 * 16 + b / 16) ::
    encodeSextet (b % 16 * 4 + c / 64) :: encodeSextet (c % 64) ::
    encode64Bytes rest

/-- Modelled from the spec: base64 decoding, `none` on malformed
input (wrong length, characters outside the alphabet, misplaced
padding). -/
def decode64Chars : List Char → Option (List Nat)
  | [] => some []
  | [_] => none
  | [_, _] => none
  | [_, _, _] => none
  | c1 :: c2 :: c3 :: c4 :: rest =>
    (decodeChar c1).bind fun s1 =>
    (decodeChar c2).bind fun s2 =>
    if c3 = '=' then
      if c4 = '=' ∧ rest = [] then some [s1 * 4 + s2 / 16] else none
    else
      (decodeChar c3).bind fun s3 =>
      if c4 = '=' then
        if rest = [] then some [s1 * 4 + s2 / 16, s2 % 16 * 16 + s3 / 4]
        else none
      else
        (decodeChar c4).bind fun s4 =>
        (decode64Chars rest).map fun tail =>
          (s1 * 4 + s2 / 16) :: (s2 % 16 * 16 + s3 / 4) ::
          (s3 % 4 * 64 + s4) :: tail

/-- String-level base64 encoding, as the ciphertext is transported. -/
def encode64 (bs : List Nat) : String :=
  ⟨encode64Bytes bs⟩

/-- String-level base64 decoding (the `forge.util.decode64` call at
the head of `decryptWithPrivateKey`). -/
def decode64 (s : String) : Option (List Nat) :=
  decode64Chars s.data

/-- Base64 decoding inverts encoding on every byte list. -/
theorem decode64Chars_encode64Bytes : ∀ (bs : List Nat), (∀ b ∈ bs, b < 256) →
    decode64Chars (encode64Bytes bs) = some bs
  | [], _ => rfl
  | [a], h => by
    have ha : a < 256 := h a (by simp)
    have h1 : a / 4 < 64 := by omega
    have h2 : a % 4 * 16 < 64 := by omega
    simp only [encode64Bytes, decode64Chars, decodeChar_encodeSextet _ h1,
      decodeChar_encodeSextet _ h2, Option.some_bind]
    simp only [and_self, if_true, Option.some.injEq, List.cons.injEq,
      and_true]
    omega
  | [a, b], h => by
    have ha : a < 256 := h a (by simp)
    have hb : b < 256 := h b (by simp)
    have h1 : a / 4 < 64 := by omega
    have h2 : a % 4 * 16 + b / 16 < 64 := by omega
    have h3 : b % 16 * 4 < 64 := by omega
    simp only [encode64Bytes, decode64Chars, decodeChar_encodeSextet _ h1,
      decodeChar_encodeSextet _ h2, decodeChar_encodeSextet _ h3,
      Option.some_bind, if_neg (encodeSextet_ne_pad _ h3)]
    simp only [and_self, if_true, Option.some.injEq, List.cons.injEq,
      and_true]
    omega
  | [a, b, c], h => by
    have ha : a < 256 := h a (by simp)
    have hb : b < 256 := h b (by simp)
    have hc : c < 256 := h c (by simp)
    have h1 : a / 4 < 64 := by omega
    have h2 : a % 4 * 16 + b / 16 < 64 := by omega
    have h3 : b % 16 * 4 + c / 64 < 64 := by omega
    have h4 : c % 64 < 64 := by omega
    simp only [encode64Bytes, decode64Chars, decodeChar_encodeSextet _ h1,
      decodeChar_encodeSextet _ h2, decodeChar_encodeSextet _ h3,
      decodeChar_encodeSextet _ h4, Option.some_bind,
      if_neg (encodeSextet_ne_pad _ h3), if_neg (encodeSextet_ne_pad _ h4)]
    simp only [and_self, if_true, Option.map_some', Option.some.injEq,
      List.cons.injEq, and_true]
    omega
  | a :: b :: c :: d :: rest, h => by
    have ha : a < 256 := h a (by simp)
    have hb : b < 256 := h b (by simp)
    have hc : c < 256 := h c (by simp)
    have h1 : a / 4 < 64 := by omega
    have h2 : a % 4 * 16 + b / 16 < 64 := by omega
    have h3 : b % 16 * 4 + c / 64 < 64 := by omega
    have h4 : c % 64 < 64 := by omega
    have ih := decode64Chars_encode64Bytes (d :: rest)
      (fun x hx => h x (List.mem_cons_of_mem a (List.mem_cons_of_mem b
        (List.mem_cons_of_mem c hx))))
    simp only [encode64Bytes, decode64Chars, decodeChar_encodeSextet _ h1,
      decodeChar_encodeSextet _ h2, decodeChar_encodeSextet _ h3,
      decodeChar_encodeSextet _ h4, Option.some_bind,
      if_neg (encodeSextet_ne_pad _ h3), if_neg (encodeSextet_ne_pad _ h4),
      ih, Option.map_some', Option.some.injEq, List.cons.injEq, and_true]
    omega

/-! ## RSA-OAEP

Modelled from the spec: the encryption half of the protocol runs in
the host client (room.html), which is not among the repository files
provided, and both halves call into node-forge; spec sections 4.2 and
6 pin the scheme (RSA with OAEP padding, one hash used both as the
label hash and inside the mask generation function, base64 transport,
2048-bit modulus in production).  The scheme is modelled here over an
arbitrary modulus size `k` (in bytes) and an arbitrary hash of output
length `hLen`, exactly so that the matched-hash requirement of the
claim can be expressed: the same `hash` parameter feeds both sides. -/

/-- Big-endian byte-list to integer conversion (OS2IP). -/
def os2ip (l : List Nat) : Nat :=
  l.foldl (fun acc b => acc * 256 + b) 0

/-- Big-endian integer to byte-list conversion (I2OSP), producing
exactly `len` bytes. -/
def i2osp : Nat → Nat → List Nat
  | _, 0 => []
  | n, len + 1 => i2osp (n / 256) len ++ [n % 256]

theorem os2ip_append (l : List Nat) (b : Nat) :
    os2ip (l ++ [b]) = os2ip l * 256 + b := by
  simp [os2ip, List.foldl_append]

theorem os2ip_cons_zero (l : List Nat) : os2ip (0 :: l) = os2ip l := by
  simp [os2ip]

theorem os2ip_lt (l : List Nat) (h : ∀ b ∈ l, b < 256) :
    os2ip l < 256 ^ l.length := by
  induction l using List.reverseRecOn with
  | nil => simp [os2ip]
  | append_singleton l b ih =>
    have hb : b < 256 := h b (by simp)
    have hl : os2ip l < 256 ^ l.length := ih (fun x hx => h x (by simp [hx]))
    rw [os2ip_append]
    have h1 : os2ip l * 256 + b < (os2ip l + 1) * 256 := by
      have : (os2ip l + 1) * 256 = os2ip l * 256 + 256 := by ring
      omega
    have h2 : (os2ip l + 1) * 256 ≤ 256 ^ l.length * 256 :=
      Nat.mul_le_mul_right 256 hl
    have h3 : (l ++ [b]).length = l.length + 1 := by simp
    rw [h3, pow_succ]
    omega

theorem i2osp_length : ∀ (n len : Nat), (i2osp n len).length = len
  | _, 0 => rfl
  | n, len + 1 => by simp [i2osp, i2osp_length (n / 256) len]

theorem i2osp_bytes_lt : ∀ (n len : Nat), ∀ b ∈ i2osp n len, b < 256
  | _, 0 => by simp [i2osp]
  | n, len + 1 => by
    simp only [i2osp, List.mem_append, List.mem_singleton]
    rintro b (hb | rfl)
    · exact i2osp_bytes_lt (n / 256) len b hb
    · exact Nat.mod_lt _ (by omega)

theorem i2osp_os2ip (l : List Nat) (h : ∀ b ∈ l, b < 256) :
    i2osp (os2ip l) l.length = l := by
  induction l using List.reverseRecOn with
  | nil => rfl
  | append_singleton l b ih =>
    have hb : b < 256 := h b (by simp)
    have hl := ih (fun x hx => h x (by simp [hx]))
    have h3 : (l ++ [b]).length = l.length + 1 := by simp
    rw [os2ip_append, h3]
    have hdiv : (os2ip l * 256 + b) / 256 = os2ip l := by omega
    have hmod : (os2ip l * 256 + b) % 256 = b := by omega
    simp [i2osp, hdiv, hmod, hl]

theorem os2ip_i2osp : ∀ (len n : Nat), n < 256 ^ len → os2ip (i2osp n len) = n
  | 0, n, h => by
    simp only [pow_zero, Nat.lt_one_iff] at h
    simp [h, i2osp, os2ip]
  | len + 1, n, h => by
    have hdivlt : n / 256 < 256 ^ len := by
      rw [Nat.div_lt_iff_lt_mul (by omega)]
      rw [pow_succ] at h
      exact h
    have ih := os2ip_i2osp len (n / 256) hdivlt
    rw [i2osp, os2ip_append, ih]
    omega

/-- Byte-wise XOR of two lists, as used for OAEP masking. -/
def xorB (a b : List Nat) : List Nat :=
  List.zipWith (fun x y => x ^^^ y) a b

theorem xorB_length (a b : List Nat) :
    (xorB a b).length = min a.length b.length := by
  simp [xorB]

theorem xorB_cancel : ∀ (a b : List Nat), a.length = b.length →
    xorB (xorB a b) b = a
  | [], [], _ => rfl
  | [], _ :: _, h => by simp at h
  | _ :: _, [], h => by simp at h
  | x :: a, y :: b, h => by
    simp only [List.length_cons, Nat.add_right_cancel_iff] at h
    simp only [xorB, List.zipWith_cons_cons]
    rw [show List.zipWith (fun x y => x ^^^ y) (List.zipWith (fun x y => x ^^^ y) a b) b
          = xorB (xorB a b) b from rfl, xorB_cancel a b h]
    simp [Nat.xor_cancel_right]

theorem xorB_bytes_lt : ∀ (a b : List Nat), (∀ x ∈ a, x < 256) →
    (∀ x ∈ b, x < 256) → ∀ x ∈ xorB a b, x < 256
  | [], _, _, _ => by simp [xorB]
  | _ :: _, [], _, _ => by simp [xorB]
  | x :: a, y :: b, ha, hb => by
    simp only [xorB, List.zipWith_cons_cons, List.mem_cons]
    rintro z (rfl | hz)
    · have h1 : x < 2 ^ 8 := ha x (by simp)
      have h2 : y < 2 ^ 8 := hb y (by simp)
      exact Nat.xor_lt_two_pow h1 h2
    · exact xorB_bytes_lt a b (fun u hu => ha u (by simp [hu]))
        (fun u hu => hb u (by simp [hu])) z hz

/-- The MGF1 mask generation function over the hash parameter:
concatenate `hash (seed ++ counter)` blocks and keep the first
`maskLen` bytes. -/
def mgf1 (hash : List Nat → List Nat) (hLen : Nat) (seed : List Nat)
    (maskLen : Nat) : List Nat :=
  (((List.range ((maskLen + hLen - 1) / hLen)).flatMap
    (fun cnt => hash (seed ++ i2osp cnt 4))).take maskLen)

theorem ceil_blocks_mul_ge (maskLen hLen : Nat) (h1 : 1 ≤ hLen) :
    maskLen ≤ (maskLen + hLen - 1) / hLen * hLen := by
  rcases Nat.eq_zero_or_pos maskLen with h | h
  · simp [h]
  · have key : maskLen - 1 < ((maskLen - 1) / hLen + 1) * hLen := by
      have ha := Nat.div_add_mod (maskLen - 1) hLen
      have hb : (maskLen - 1) % hLen < hLen := Nat.mod_lt _ h1
      have hc : ((maskLen - 1) / hLen + 1) * hLen
          = hLen * ((maskLen - 1) / hLen) + hLen := by ring
      omega
    have hq : (maskLen + hLen - 1) / hLen = (maskLen - 1) / hLen + 1 := by
      have heq : maskLen + hLen - 1 = (maskLen - 1) + hLen := by omega
      rw [heq, Nat.add_div_right _ h1]
    rw [hq]
    omega

theorem mgf1_length (hash : List Nat → List Nat) (hLen : Nat)
    (seed : List Nat) (maskLen : Nat)
    (hhash : ∀ x, (hash x).length = hLen) (h1 : 1 ≤ hLen) :
    (mgf1 hash hLen seed maskLen).length = maskLen := by
  unfold mgf1
  rw [List.length_take]
  refine min_eq_left ?_
  rw [List.length_flatMap]
  have hmap : (List.range ((maskLen + hLen - 1) / hLen)).map
      (fun cnt => (hash (seed ++ i2osp cnt 4)).length)
      = List.replicate ((maskLen + hLen - 1) / hLen) hLen := by
    simp [hhash, List.map_const']
  rw [show (List.length ∘ fun cnt => hash (seed ++ i2osp cnt 4))
        = fun cnt => (hash (seed ++ i2osp cnt 4)).length from rfl] at *
  rw [hmap, List.sum_replicate, smul_eq_mul, mul_comm]
  rw [mul_comm]
  exact ceil_blocks_mul_ge maskLen hLen h1

theorem mgf1_bytes_lt (hash : List Nat → List Nat) (hLen : Nat)
    (seed : List Nat) (maskLen : Nat)
    (hhash : ∀ x b, b ∈ hash x → b < 256) :
    ∀ b ∈ mgf1 hash hLen seed maskLen, b < 256 := by
  intro b hb
  unfold mgf1 at hb
  have hb2 := List.mem_of_mem_take hb
  rw [List.mem_flatMap] at hb2
  obtain ⟨cnt, _, hmem⟩ := hb2
  exact hhash _ b hmem

/-- The OAEP data block `DB = lHash || PS || 0x01 || M` (label fixed
to the empty string, as in the source's `privateKey.decrypt(encrypted,
'RSA-OAEP', {md, mgf1})` call which passes no label). -/
def oaepDB (hash : List Nat → List Nat) (hLen k : Nat)
    (m : List Nat) : List Nat :=
  hash [] ++ (List.replicate (k - m.length - 2 * hLen - 2) 0 ++ 1 :: m)

/-- The masked data block `maskedDB = DB xor MGF1(seed, k - hLen - 1)`. -/
def oaepMaskedDB (hash : List Nat → List Nat) (hLen k : Nat)
    (m seed : List Nat) : List Nat :=
  xorB (oaepDB hash hLen k m) (mgf1 hash hLen seed (k - hLen - 1))

/-- The masked seed `maskedSeed = seed xor MGF1(maskedDB, hLen)`. -/
def oaepMaskedSeed (hash : List Nat → List Nat) (hLen k : Nat)
    (m seed : List Nat) : List Nat :=
  xorB seed (mgf1 hash hLen (oaepMaskedDB hash hLen k m seed) hLen)

/-- Modelled from the spec: EME-OAEP encoding of message `m` with seed
`seed` into a `k`-byte encoded block, failing (`PlaintextTooLong`)
when the message exceeds `k - 2*hLen - 2` bytes. -/
def eme_oaep_encode (hash : List Nat → List Nat) (hLen k : Nat)
    (m seed : List Nat) : Option (List Nat) :=
  if m.length + 2 * hLen + 2 > k then none
  else some (0 :: (oaepMaskedSeed hash hLen k m seed ++
                   oaepMaskedDB hash hLen k m seed))

/-- Modelled from the spec: EME-OAEP decoding; every consistency
failure (nonzero leading byte, label hash mismatch, missing 0x01
separator) yields `none`. -/
def eme_oaep_decode (hash : List Nat → List Nat) (hLen : Nat)
    (em : List Nat) : Option (List Nat) :=
  match em with
  | [] => none
  | y :: rest =>
    let maskedSeed := rest.take hLen
    let maskedDB := rest.drop hLen
    let seed := xorB maskedSeed (mgf1 hash hLen maskedDB hLen)
    let db := xorB maskedDB (mgf1 hash hLen seed maskedDB.length)
    if y ≠ 0 then none
    else if db.take hLen ≠ hash [] then none
    else
      match (db.drop hLen).dropWhile (fun x => x == 0) with
      | sep :: msg => if sep = 1 then some msg else none
      | [] => none

theorem oaepDB_length (hash : List Nat → List Nat) (hLen k : Nat)
    (m : List Nat) (hhash : ∀ x, (hash x).length = hLen)
    (hk : m.length + 2 * hLen + 2 ≤ k) :
    (oaepDB hash hLen k m).length = k - hLen - 1 := by
  simp [oaepDB, hhash]
  omega

theorem oaepMaskedDB_length (hash : List Nat → List Nat) (hLen k : Nat)
    (m seed : List Nat) (hhash : ∀ x, (hash x).length = hLen)
    (h1 : 1 ≤ hLen) (hk : m.length + 2 * hLen + 2 ≤ k) :
    (oaepMaskedDB hash hLen k m seed).length = k - hLen - 1 := by
  rw [oaepMaskedDB, xorB_length, oaepDB_length hash hLen k m hhash hk,
    mgf1_length hash hLen seed (k - hLen - 1) hhash h1, min_self]

theorem oaepMaskedSeed_length (hash : List Nat → List Nat) (hLen k : Nat)
    (m seed : List Nat) (hhash : ∀ x, (hash x).length = hLen)
    (h1 : 1 ≤ hLen) (hseed : seed.length = hLen) :
    (oaepMaskedSeed hash hLen k m seed).length = hLen := by
  rw [oaepMaskedSeed, xorB_length, hseed,
    mgf1_length hash hLen _ hLen hhash h1, min_self]

theorem dropWhile_zeros : ∀ (n : Nat) (l : List Nat),
    List.dropWhile (fun x => x == 0) (List.replicate n 0 ++ 1 :: l) = 1 :: l
  | 0, l => by simp [List.dropWhile_cons]
  | n + 1, l => by
    simp only [List.replicate_succ, List.cons_append, List.dropWhile_cons]
    simp [dropWhile_zeros n l]

/-- OAEP decoding inverts OAEP encoding when both sides use the same
hash. -/
theorem eme_oaep_decode_encode (hash : List Nat → List Nat)
    (hLen k : Nat) (m seed em : List Nat)
    (hhash : ∀ x, (hash x).length = hLen) (h1 : 1 ≤ hLen)
    (hseed : seed.length = hLen)
    (henc : eme_oaep_encode hash hLen k m seed = some em) :
    eme_oaep_decode hash hLen em = some m := by
  rw [eme_oaep_encode] at henc
  split at henc
  · exact absurd henc (by simp)
  · rename_i hk
    have hk2 : m.length + 2 * hLen + 2 ≤ k := by omega
    obtain rfl : (0 :: (oaepMaskedSeed hash hLen k m seed ++
        oaepMaskedDB hash hLen k m seed)) = em := by
      simpa using henc
    have hms := oaepMaskedSeed_length hash hLen k m seed hhash h1 hseed
    have hmd := oaepMaskedDB_length hash hLen k m seed hhash h1 hk2
    have hdb := oaepDB_length hash hLen k m hhash hk2
    have L1 : (oaepMaskedSeed hash hLen k m seed ++
        oaepMaskedDB hash hLen k m seed).take hLen
        = oaepMaskedSeed hash hLen k m seed := List.take_left' hms
    have L2 : (oaepMaskedSeed hash hLen k m seed ++
        oaepMaskedDB hash hLen k m seed).drop hLen
        = oaepMaskedDB hash hLen k m seed := List.drop_left' hms
    have L3 : xorB (oaepMaskedSeed hash hLen k m seed)
        (mgf1 hash hLen (oaepMaskedDB hash hLen k m seed) hLen) = seed := by
      rw [oaepMaskedSeed]
      exact xorB_cancel seed _
        (by rw [hseed, mgf1_length hash hLen _ hLen hhash h1])
    have L5 : xorB (oaepMaskedDB hash hLen k m seed)
        (mgf1 hash hLen seed (k - hLen - 1)) = oaepDB hash hLen k m := by
      rw [oaepMaskedDB]
      exact xorB_cancel _ _
        (by rw [hdb, mgf1_length hash hLen _ _ hhash h1])
    have L6 : (oaepDB hash hLen k m).take hLen = hash [] :=
      List.take_left' (hhash [])
    have L7 : (oaepDB hash hLen k m).drop hLen
        = List.replicate (k - m.length - 2 * hLen - 2) 0 ++ 1 :: m :=
      List.drop_left' (hhash [])
    rw [eme_oaep_decode]
    simp only [L1, L2, L3, hmd, L5, L6, L7, dropWhile_zeros]
    simp

/-- Textbook RSA encryption primitive (RSAEP): modular
exponentiation with the public exponent. -/
def rsaep (n e msg : Nat) : Nat :=
  msg ^ e % n

/-- Textbook RSA decryption primitive (RSADP): modular
exponentiation with the private exponent. -/
def rsadp (n d c : Nat) : Nat :=
  c ^ d % n

/-- Modelled from the spec: the encrypt half of the protocol
(`publicKey.encrypt(plaintext, 'RSA-OAEP', {md, mgf1})` followed by
`forge.util.encode64` in the host client): OAEP-encode the message,
apply RSAEP, and base64 the `k`-byte result. -/
def encryptWithPublicKey (hash : List Nat → List Nat) (hLen k n e : Nat)
    (seed m : List Nat) : Option String :=
  (eme_oaep_encode hash hLen k m seed).map fun em =>
    encode64 (i2osp (rsaep n e (os2ip em)) k)

/-- Embedding of `decryptWithPrivateKey(encryptedBase64, privateKey)`
from public/shared-utils.js lines 133 to 144: `forge.util.decode64`,
then `privateKey.decrypt(encrypted, 'RSA-OAEP', {md:
forge.md.sha256.create(), mgf1: {md: forge.md.sha256.create()}})`;
the try/catch returning `null` becomes the `Option` plumbing, so any
failure — malformed base64 or any OAEP consistency failure — is the
distinguishable value `none`.  The hash the source pins to SHA-256 on
both the label and mask sides is the single `hash` parameter. -/
def decryptWithPrivateKey (hash : List Nat → List Nat) (hLen k n d : Nat)
    (encryptedBase64 : String) : Option (List Nat) :=
  (decode64 encryptedBase64).bind fun bytes =>
    eme_oaep_decode hash hLen (i2osp (rsadp n d (os2ip bytes)) k)

theorem oaepDB_bytes_lt (hash : List Nat → List Nat) (hLen k : Nat)
    (m : List Nat) (hhb : ∀ x b, b ∈ hash x → b < 256)
    (hm : ∀ b ∈ m, b < 256) :
    ∀ b ∈ oaepDB hash hLen k m, b < 256 := by
  intro b hb
  simp only [oaepDB, List.mem_append, List.mem_replicate, List.mem_cons] at hb
  rcases hb with hb | ⟨_, rfl⟩ | rfl | hb
  · exact hhb [] b hb
  · omega
  · omega
  · exact hm b hb

theorem oaepEncode_bytes_lt (hash : List Nat → List Nat) (hLen k : Nat)
    (m seed : List Nat) (hhb : ∀ x b, b ∈ hash x → b < 256)
    (hm : ∀ b ∈ m, b < 256) (hs : ∀ b ∈ seed, b < 256) :
    ∀ b ∈ (0 :: (oaepMaskedSeed hash hLen k m seed ++
        oaepMaskedDB hash hLen k m seed)), b < 256 := by
  intro b hb
  simp only [List.mem_cons, List.mem_append] at hb
  rcases hb with rfl | hb | hb
  · omega
  · exact xorB_bytes_lt seed _ hs
      (mgf1_bytes_lt hash hLen _ hLen hhb) b hb
  · exact xorB_bytes_lt _ _ (oaepDB_bytes_lt hash hLen k m hhb hm)
      (mgf1_bytes_lt hash hLen seed (k - hLen - 1) hhb) b hb

/-- The full round trip: for any message and seed within the OAEP
length bounds, any hash of fixed output length used identically on
both sides, and any modulus/exponent triple on which the RSA
primitives invert each other over the 255-bit-leading-zero message
space, decryption of an encryption returns exactly the plaintext. -/
theorem decrypt_encrypt_roundtrip (hash : List Nat → List Nat)
    (hLen k n e d : Nat) (seed m : List Nat) (c64 : String)
    (hhash : ∀ x, (hash x).length = hLen)
    (hhb : ∀ x b, b ∈ hash x → b < 256)
    (h1 : 1 ≤ hLen)
    (hseed : seed.length = hLen) (hs : ∀ b ∈ seed, b < 256)
    (hm : ∀ b ∈ m, b < 256)
    (hk : m.length + 2 * hLen + 2 ≤ k)
    (hn1 : 256 ^ (k - 1) ≤ n) (hn2 : n ≤ 256 ^ k)
    (hinv : ∀ msg, msg < 256 ^ (k - 1) → rsadp n d (rsaep n e msg) = msg)
    (henc : encryptWithPublicKey hash hLen k n e seed m = some c64) :
    decryptWithPrivateKey hash hLen k n d c64 = some m := by
  rw [encryptWithPublicKey] at henc
  have hoaep : eme_oaep_encode hash hLen k m seed
      = some (0 :: (oaepMaskedSeed hash hLen k m seed ++
          oaepMaskedDB hash hLen k m seed)) := by
    rw [eme_oaep_encode, if_neg (by omega)]
  rw [hoaep, Option.map_some'] at henc
  obtain rfl : encode64 (i2osp (rsaep n e (os2ip
      (0 :: (oaepMaskedSeed hash hLen k m seed ++
        oaepMaskedDB hash hLen k m seed)))) k) = c64 := by
    simpa using henc
  set em := 0 :: (oaepMaskedSeed hash hLen k m seed ++
    oaepMaskedDB hash hLen k m seed) with hem
  have hembytes : ∀ b ∈ em, b < 256 :=
    oaepEncode_bytes_lt hash hLen k m seed hhb hm hs
  have hemlen : em.length = k := by
    rw [hem]
    simp only [List.length_cons, List.length_append]
    rw [oaepMaskedSeed_length hash hLen k m seed hhash h1 hseed,
      oaepMaskedDB_length hash hLen k m seed hhash h1 hk]
    omega
  have hemlt : os2ip em < 256 ^ (k - 1) := by
    rw [hem, os2ip_cons_zero]
    have := os2ip_lt (oaepMaskedSeed hash hLen k m seed ++
      oaepMaskedDB hash hLen k m seed) (fun b hb => hembytes b (by simp [hem, hb]))
    have hlen2 : (oaepMaskedSeed hash hLen k m seed ++
        oaepMaskedDB hash hLen k m seed).length = k - 1 := by
      have := hemlen
      rw [hem] at this
      simp only [List.length_cons] at this
      omega
    rwa [hlen2] at this
  have hnpos : 0 < n := by
    have : 0 < 256 ^ (k - 1) := Nat.pos_pow_of_pos _ (by omega)
    omega
  have hclt : rsaep n e (os2ip em) < 256 ^ k := by
    have : rsaep n e (os2ip em) < n := Nat.mod_lt _ hnpos
    omega
  rw [decryptWithPrivateKey, decode64]
  have hdec64 : decode64Chars (encode64 (i2osp (rsaep n e (os2ip em)) k)).data
      = some (i2osp (rsaep n e (os2ip em)) k) := by
    rw [encode64]
    exact decode64Chars_encode64Bytes _ (i2osp_bytes_lt _ _)
  rw [hdec64, Option.some_bind, os2ip_i2osp k _ hclt, hinv _ hemlt]
  have hback : i2osp (os2ip em) k = em := by
    rw [← hemlen]
    exact i2osp_os2ip em hembytes
  rw [hback]
  exact eme_oaep_decode_encode hash hLen k m seed em hhash h1 hseed hoaep

/-! ## Lemmas about the start endpoint's stamping loop -/

theorem setAssignment_getElem? (ps : List Participant) (u ct : String) :
    ∀ i : Nat, (setAssignment ps u ct)[i]? = ps[i]? ∨
      ∃ p : Participant, ps[i]? = some p ∧ p.username = u ∧
        (setAssignment ps u ct)[i]? =
          some { p with encryptedAssignment := some ct } := by
  induction ps with
  | nil => intro i; left; rfl
  | cons q ps ih =>
    intro i
    by_cases hq : q.username = u
    · cases i with
      | zero =>
        right
        exact ⟨q, by simp, hq, by simp [setAssignment, hq]⟩
      | succ i =>
        left
        simp [setAssignment, hq]
    · cases i with
      | zero => left; simp [setAssignment, hq]
      | succ i =>
        have := ih i
        simpa [setAssignment, hq] using this

theorem setAssignment_covered (ps : List Participant) (u ct : String)
    (hnd : (ps.map (·.username)).Nodup) :
    ∀ (i : Nat) (p : Participant), ps[i]? = some p → p.username = u →
      (setAssignment ps u ct)[i]? =
        some { p with encryptedAssignment := some ct } := by
  induction ps with
  | nil => intro i p hp; simp at hp
  | cons q ps ih =>
    intro i p hp hu
    simp only [List.map_cons, List.nodup_cons] at hnd
    by_cases hq : q.username = u
    · cases i with
      | zero =>
        obtain rfl : q = p := by simpa using hp
        simp [setAssignment, hq]
      | succ i =>
        exfalso
        simp only [List.getElem?_cons_succ] at hp
        have hpm : p ∈ ps := List.getElem?_mem hp
        exact hnd.1 (by
          rw [List.mem_map]
          exact ⟨p, hpm, hu.trans hq.symm⟩)
    · cases i with
      | zero =>
        obtain rfl : q = p := by simpa using hp
        exact absurd hu hq
      | succ i =>
        simp only [List.getElem?_cons_succ] at hp
        have := ih hnd.2 i p hp hu
        simpa [setAssignment, hq] using this

theorem setAssignment_mem_of_ne (ps : List Participant) (u ct : String)
    (p : Participant) (hp : p ∈ ps) (hne : p.username ≠ u) :
    p ∈ setAssignment ps u ct := by
  induction ps with
  | nil => simp at hp
  | cons q ps ih =>
    rcases List.mem_cons.mp hp with rfl | hp2
    · simp only [setAssignment]
      rw [if_neg hne]
      exact List.mem_cons_self p _
    · by_cases hq : q.username = u
      · simp only [setAssignment]
        rw [if_pos hq]
        exact List.mem_cons_of_mem _ hp2
      · simp only [setAssignment]
        rw [if_neg hq]
        exact List.mem_cons_of_mem _ (ih hp2)

theorem setAssignment_usernames (ps : List Participant) (u ct : String) :
    (setAssignment ps u ct).map (·.username) = ps.map (·.username) := by
  induction ps with
  | nil => rfl
  | cons q ps ih =>
    by_cases hq : q.username = u
    · simp [setAssignment, hq]
    · simp [setAssignment, hq, ih]

theorem stampAssignments_cons (ps : List Participant)
    (e : String × String) (eas : List (String × String)) :
    stampAssignments ps (e :: eas)
      = stampAssignments (setAssignment ps e.1 e.2) eas := rfl

theorem stampAssignments_usernames (eas : List (String × String)) :
    ∀ ps, (stampAssignments ps eas).map (·.username)
      = ps.map (·.username) := by
  induction eas with
  | nil => intro ps; rfl
  | cons e eas ih =>
    intro ps
    rw [stampAssignments_cons, ih, setAssignment_usernames]

theorem stampAssignments_getElem? (eas : List (String × String)) :
    ∀ (ps : List Participant) (i : Nat),
      (stampAssignments ps eas)[i]? = ps[i]? ∨
      ∃ (p : Participant) (ct : String), ps[i]? = some p ∧
        (stampAssignments ps eas)[i]? =
          some { p with encryptedAssignment := some ct } := by
  induction eas with
  | nil => intro ps i; left; rfl
  | cons e eas ih =>
    intro ps i
    rw [stampAssignments_cons]
    rcases ih (setAssignment ps e.1 e.2) i with h | ⟨p, ct, hp, hs⟩
    · rcases setAssignment_getElem? ps e.1 e.2 i with h2 | ⟨p, hp, _, hs⟩
      · left; rw [h, h2]
      · right; exact ⟨p, e.2, hp, by rw [h, hs]⟩
    · rcases setAssignment_getElem? ps e.1 e.2 i with h2 | ⟨q, hq, _, hs2⟩
      · right
        exact ⟨p, ct, by rw [← h2, hp], hs⟩
      · right
        refine ⟨q, ct, hq, ?_⟩
        rw [hs2] at hp
        obtain rfl : { q with encryptedAssignment := some e.2 } = p := by
          simpa using hp
        simpa using hs

theorem stampAssignments_nonnull_persists (eas : List (String × String)) :
    ∀ (ps : List Participant) (i : Nat) (p q : Participant),
      ps[i]? = some p → p.encryptedAssignment ≠ none →
      (stampAssignments ps eas)[i]? = some q →
      q.encryptedAssignment ≠ none := by
  intro ps i p q hp hnn hq
  rcases stampAssignments_getElem? eas ps i with h | ⟨p2, ct, hp2, hs⟩
  · rw [h, hp] at hq
    obtain rfl : p = q := by simpa using hq
    exact hnn
  · rw [hp2] at hp
    obtain rfl : p2 = p := by simpa using hp
    rw [hs] at hq
    obtain rfl : { p2 with encryptedAssignment := some ct } = q := by
      simpa using hq
    simp

theorem stampAssignments_covered (eas : List (String × String)) :
    ∀ (ps : List Participant) (i : Nat) (p : Participant),
      (ps.map (·.username)).Nodup → ps[i]? = some p →
      (∃ ct, (p.username, ct) ∈ eas) →
      ∃ q, (stampAssignments ps eas)[i]? = some q ∧
        q.encryptedAssignment ≠ none := by
  induction eas with
  | nil => intro ps i p _ _ hcov; simp at hcov
  | cons e eas ih =>
    intro ps i p hnd hp hcov
    rw [stampAssignments_cons]
    by_cases he : e.1 = p.username
    · have hset : (setAssignment ps e.1 e.2)[i]? =
          some { p with encryptedAssignment := some e.2 } :=
        setAssignment_covered ps e.1 e.2 hnd i p hp he.symm
      rcases stampAssignments_getElem? eas (setAssignment ps e.1 e.2) i with
        h | ⟨p2, ct, hp2, hs⟩
      · refine ⟨_, by rw [h, hset], ?_⟩
        simp
      · exact ⟨_, hs, by simp⟩
    · obtain ⟨ct, hct⟩ := hcov
      have hct2 : (p.username, ct) ∈ eas := by
        rcases List.mem_cons.mp hct with heq | h2
        · exact absurd (congrArg Prod.fst heq.symm) he
        · exact h2
      have hnd2 : ((setAssignment ps e.1 e.2).map (·.username)).Nodup := by
        rw [setAssignment_usernames]; exact hnd
      rcases setAssignment_getElem? ps e.1 e.2 i with h2 | ⟨q, hq, hqu, hs2⟩
      · exact ih (setAssignment ps e.1 e.2) i p hnd2 (by rw [h2, hp]) ⟨ct, hct2⟩
      · rw [hq] at hp
        obtain rfl : q = p := by simpa using hp
        exact absurd hqu.symm (by simpa using he)

/-! ## Lemmas about the sanitizer -/

theorem length_dropWhile_le {α : Type} (p : α → Bool) (l : List α) :
    (l.dropWhile p).length ≤ l.length :=
  (List.dropWhile_sublist p).length_le

theorem dropWhile_eq_of_length_eq {α : Type} (p : α → Bool) (l : List α)
    (h : (l.dropWhile p).length = l.length) : l.dropWhile p = l := by
  cases l with
  | nil => rfl
  | cons x xs =>
    rw [List.dropWhile_cons] at h ⊢
    by_cases hp : p x
    · exfalso
      rw [if_pos hp] at h
      have := length_dropWhile_le p xs
      simp at h
      omega
    · rw [if_neg hp]

theorem trimChars_length_le (l : List Char) :
    (trimChars l).length ≤ l.length := by
  unfold trimChars trimLeftChars
  calc (((l.reverse.dropWhile Char.isWhitespace).reverse).dropWhile
          Char.isWhitespace).length
      ≤ ((l.reverse.dropWhile Char.isWhitespace).reverse).length :=
        length_dropWhile_le _ _
    _ = (l.reverse.dropWhile Char.isWhitespace).length := by
        rw [List.length_reverse]
    _ ≤ l.reverse.length := length_dropWhile_le _ _
    _ = l.length := by rw [List.length_reverse]

theorem trimChars_eq_of_length_eq (l : List Char)
    (h : (trimChars l).length = l.length) : trimChars l = l := by
  unfold trimChars trimLeftChars at h ⊢
  have h1 : ((l.reverse.dropWhile Char.isWhitespace).reverse).length
      ≤ l.length := by
    rw [List.length_reverse]
    calc (l.reverse.dropWhile Char.isWhitespace).length
        ≤ l.reverse.length := length_dropWhile_le _ _
      _ = l.length := by rw [List.length_reverse]
  have h2 := length_dropWhile_le Char.isWhitespace
    ((l.reverse.dropWhile Char.isWhitespace).reverse)
  have h3 : ((l.reverse.dropWhile Char.isWhitespace).reverse).length
      = l.length := by omega
  have h4 : (l.reverse.dropWhile Char.isWhitespace).length
      = l.reverse.length := by
    rw [List.length_reverse] at h3 ⊢
    exact h3
  have h5 : l.reverse.dropWhile Char.isWhitespace = l.reverse :=
    dropWhile_eq_of_length_eq _ _ h4
  rw [h5, List.reverse_reverse] at h ⊢
  exact dropWhile_eq_of_length_eq _ _ h

/-- If the submitted string contains a stripped character or
surrounding whitespace, sanitization changes it. -/
theorem sanitizeString_ne (s : String)
    (h : (∃ c ∈ s.data, badChar c = true) ∨ trimChars s.data ≠ s.data) :
    sanitizeString s 50 ≠ s := by
  intro heq
  have hdata : ((trimChars s.data).take 50).filter (fun c => !badChar c)
      = s.data := by
    have := congrArg String.data heq
    simpa [sanitizeString] using this
  rcases h with ⟨c, hc, hbad⟩ | hne
  · have hcf : c ∈ ((trimChars s.data).take 50).filter (fun c => !badChar c) := by
      rw [hdata]; exact hc
    have := (List.mem_filter.mp hcf).2
    rw [hbad] at this
    simp at this
  · have hlen : (((trimChars s.data).take 50).filter
        (fun c => !badChar c)).length = s.data.length := by rw [hdata]
    have l1 : (((trimChars s.data).take 50).filter
        (fun c => !badChar c)).length ≤ ((trimChars s.data).take 50).length :=
      List.length_filter_le _ _
    have l2 : ((trimChars s.data).take 50).length ≤ (trimChars s.data).length :=
      List.length_take_le' _ _
    have l3 := trimChars_length_le s.data
    exact hne (trimChars_eq_of_length_eq s.data (by omega))

theorem stampAssignments_mem_of_not_named (eas : List (String × String)) :
    ∀ (ps : List Participant) (p : Participant), p ∈ ps →
      (∀ e ∈ eas, e.1 ≠ p.username) → p ∈ stampAssignments ps eas := by
  induction eas with
  | nil => intro ps p hp _; exact hp
  | cons e eas ih =>
    intro ps p hp hne
    rw [stampAssignments_cons]
    refine ih _ p ?_ (fun e2 he2 => hne e2 (List.mem_cons_of_mem e he2))
    exact setAssignment_mem_of_ne ps e.1 e.2 p hp
      (fun hu => hne e (List.mem_cons_self e eas) (hu ▸ rfl))

/-! ## Concrete fixtures used by witnesses and counterexamples -/

/-- A stand-in for the SHA-256 hex digest in concrete evaluations:
the handlers are parametric in the hash, so any function exercises
them. -/
def idHash : String → String := fun s => s

/-- A concrete instantiation of the forge/CryptoJS primitives, used
only to exercise the parametric derivation theorem on explicit
inputs. -/
def testForgePrimitives : ForgePrimitives String String where
  pbkdf2Hex := fun seed salt words iters =>
    seed ++ "|" ++ salt ++ "|" ++ toString words ++ "|" ++ toString iters
  hexToBytes := fun s => s.data.map Char.toNat
  generateKeyPairFromSeed := fun bits bytes =>
    ⟨toString bits ++ "-pub-" ++ toString bytes, "prv-" ++ toString bytes⟩

/-- An empty open room with a fixed host login hash. -/
def roomOpen0 : Room :=
  ⟨"r1", "Xmas Party", "Host", "HOSTSECRET", [], "open", "t0"⟩

/-- A started room containing Bob with a stored ciphertext. -/
def roomStartedBob : Room :=
  ⟨"r2", "Xmas", "Host", "HOSTSECRET",
   [⟨"Bob", "pw-bob", some "CIPHER64"⟩], "started", "t0"⟩

/-- The same room before start: Bob registered, no ciphertext. -/
def roomOpenBob : Room :=
  ⟨"r2", "Xmas", "Host", "HOSTSECRET",
   [⟨"Bob", "pw-bob", none⟩], "open", "t0"⟩

/-- An open room with two registered participants and host login hash
matching `idHash ("host" ++ "pw")`. -/
def roomTwoOpen : Room :=
  ⟨"r3", "Party", "host", "hostpw",
   [⟨"Alice", "pa", none⟩, ⟨"Bob", "pb", none⟩], "open", "t0"⟩

/-! ## The claims -/

/-- C1: key derivation is deterministic — the derived keypair is a
function of the PBKDF2 seed material alone (the concatenated
`username + password + roomId` string and the `keySalt`), for every
choice of the library primitives; in particular two invocations on
the same tuple yield identical public and private key material, with
no entropy outside the PBKDF2-derived seed bytes. -/
theorem c1_derive_deterministic {PK SK : Type} (F : ForgePrimitives PK SK)
    (u1 p1 r1 ks1 u2 p2 r2 ks2 : String)
    (hseed : u1 ++ p1 ++ r1 = u2 ++ p2 ++ r2) (hsalt : ks1 = ks2) :
    (deriveKeyPairFromPassword F u1 p1 r1 ks1).publicKey
      = (deriveKeyPairFromPassword F u2 p2 r2 ks2).publicKey ∧
    (deriveKeyPairFromPassword F u1 p1 r1 ks1).privateKey
      = (deriveKeyPairFromPassword F u2 p2 r2 ks2).privateKey := by
  unfold deriveKeyPairFromPassword
  rw [hseed, hsalt]
  exact ⟨rfl, rfl⟩

theorem c1_derive_deterministic_witness :
    ("alice" ++ "pw" ++ "room1" = "alice" ++ "pw" ++ "room1") ∧
    ((deriveKeyPairFromPassword testForgePrimitives "alice" "pw" "room1" "s1").publicKey
      = (deriveKeyPairFromPassword testForgePrimitives "alice" "pw" "room1" "s1").publicKey ∧
     (deriveKeyPairFromPassword testForgePrimitives "alice" "pw" "room1" "s1").privateKey
      = (deriveKeyPairFromPassword testForgePrimitives "alice" "pw" "room1" "s1").privateKey) :=
  ⟨rfl, c1_derive_deterministic testForgePrimitives
    "alice" "pw" "room1" "s1" "alice" "pw" "room1" "s1" rfl rfl⟩

/-- C2: the register endpoint does not store the submitted public key
or keySalt — its entire outcome (response and new room state) is
unchanged when those two fields are replaced, and the stored record
is exactly `{username, passwordHash, encryptedAssignment: null}`; the
client's `registerUser` sends both fields and the repository's own
API documentation says they are stored, so the claim fails against
the server code. -/
theorem c2_register_discards_publicKey_and_keySalt :
    registerRoute idHash roomOpen0 ⟨"Alice", "pass1", "PEM-A", "SALT-A"⟩
      = registerRoute idHash roomOpen0 ⟨"Alice", "pass1", "PEM-B", "SALT-B"⟩ ∧
    registerRoute idHash roomOpen0 ⟨"Alice", "pass1", "PEM-A", "SALT-A"⟩
      = (.registered "Alice",
         { roomOpen0 with participants := [⟨"Alice", "pass1", none⟩] }) := by
  constructor
  · rfl
  · decide

/-- C3: login in a started room returns the ciphertext but no
`keySalt` field at all (the client's `loginAndDecrypt` reads
`data.keySalt`, so derivation cannot be replayed), and login before
start returns the explicit not-started signal with no ciphertext
field. -/
theorem c3_login_returns_no_keySalt :
    loginRoute idHash roomStartedBob "Bob" "pw-bob"
      = (200, [("success", JV.b true), ("username", JV.s "Bob"),
               ("roomName", JV.s "Xmas"),
               ("encryptedAssignment", JV.s "CIPHER64")]) ∧
    List.lookup "keySalt" (loginRoute idHash roomStartedBob "Bob" "pw-bob").2
      = none ∧
    loginRoute idHash roomOpenBob "Bob" "pw-bob"
      = (400, [("error", JV.s "Room has not started yet"),
               ("roomStatus", JV.s "open")]) ∧
    List.lookup "encryptedAssignment"
      (loginRoute idHash roomOpenBob "Bob" "pw-bob").2 = none := by
  decide

/-- C9 counterexample: the three authentication-mismatch cases give
three different status codes and messages — unknown login username
gives 404 `User not found in this room`, wrong login password gives
401 `Invalid password`, wrong re-registration password gives 401
`Invalid password for this username` — so the outcome reveals which
check failed, contradicting the claim's single generic message. -/
theorem c9_auth_errors_distinguish_checks :
    loginRoute idHash roomStartedBob "Zoe" "whatever"
      = (404, [("error", JV.s "User not found in this room")]) ∧
    loginRoute idHash roomStartedBob "Bob" "wrongpw"
      = (401, [("error", JV.s "Invalid password")]) ∧
    (registerRoute idHash roomOpenBob ⟨"Bob", "wrongpw", "PK", "S"⟩).1
      = .err 401 "Invalid password for this username" ∧
    loginRoute idHash roomStartedBob "Zoe" "whatever"
      ≠ loginRoute idHash roomStartedBob "Bob" "wrongpw" := by
  decide

/-- C9 amended: each authentication mismatch is reported with its own
check-specific outcome — unknown username at login yields 404
`User not found in this room`; a wrong password at login yields 401
`Invalid password`; a wrong password when re-registering an existing
username in an open room yields 401 `Invalid password for this
username` — rather than one generic `invalid credentials` message. -/
theorem c9_auth_error_messages (hash : String → String) (room : Room)
    (u p : String) (req : RegisterReq) (su : String) (q : Participant) :
    (u ≠ "" → p ≠ "" →
      room.participants.find? (fun x => x.username = u) = none →
      loginRoute hash room u p
        = (404, [("error", JV.s "User not found in this room")])) ∧
    (u ≠ "" → p ≠ "" →
      room.participants.find? (fun x => x.username = u) = some q →
      hash p ≠ q.passwordHash →
      loginRoute hash room u p
        = (401, [("error", JV.s "Invalid password")])) ∧
    (req.username ≠ "" → req.password ≠ "" →
      room.status ≠ "started" →
      validateUsername req.username = .ok su →
      validatePassword req.password = .ok req.password →
      hash (su ++ req.password) ≠ room.hostLoginHash →
      room.participants.find? (fun x => x.username = su) = some q →
      hash req.password ≠ q.passwordHash →
      registerRoute hash room req
        = (.err 401 "Invalid password for this username", room)) := by
  refine ⟨?_, ?_, ?_⟩
  · intro hu hp hfind
    simp only [loginRoute,
      if_neg (show ¬(u = "" ∨ p = "") by simp [hu, hp]), hfind]
  · intro hu hp hfind hpw
    simp only [loginRoute,
      if_neg (show ¬(u = "" ∨ p = "") by simp [hu, hp]), hfind, if_pos hpw]
  · intro hu hp hstat hvu hvp hhost hfind hpw
    simp only [registerRoute,
      if_neg (show ¬(req.username = "" ∨ req.password = "") by simp [hu, hp]),
      if_neg hstat, hvu, hvp, if_neg hhost, hfind, if_pos hpw]

theorem c9_auth_error_messages_witness :
    loginRoute idHash roomStartedBob "Zoe" "pw"
      = (404, [("error", JV.s "User not found in this room")]) ∧
    loginRoute idHash roomStartedBob "Bob" "bad-pw"
      = (401, [("error", JV.s "Invalid password")]) ∧
    registerRoute idHash roomOpenBob ⟨"Bob", "bad-pw", "PK", "S"⟩
      = (.err 401 "Invalid password for this username", roomOpenBob) :=
  ⟨(c9_auth_error_messages idHash roomStartedBob "Zoe" "pw"
      ⟨"Bob", "bad-pw", "PK", "S"⟩ "Bob" ⟨"Bob", "pw-bob", some "CIPHER64"⟩).1
      (by decide) (by decide) (by decide),
   (c9_auth_error_messages idHash roomStartedBob "Bob" "bad-pw"
      ⟨"Bob", "bad-pw", "PK", "S"⟩ "Bob" ⟨"Bob", "pw-bob", some "CIPHER64"⟩).2.1
      (by decide) (by decide) (by decide) (by decide),
   (c9_auth_error_messages idHash roomOpenBob "Bob" "bad-pw"
      ⟨"Bob", "bad-pw", "PK", "S"⟩ "Bob" ⟨"Bob", "pw-bob", none⟩).2.2
      (by decide) (by decide) (by decide) (by rfl) (by rfl)
      (by decide) (by decide) (by decide)⟩

/-- C6: the room lifecycle is one-way — no handler ever moves the
status away from `started` (register and remove-participant never
touch the status, start either leaves it or sets it to `started`),
and once a room is started, register, remove-participant and start
all leave the room record — participants, ciphertexts and status —
exactly unchanged; a repeated start with valid host credentials is
rejected with the lifecycle error `Room has already started`. -/
theorem c6_lifecycle_one_way (hash : String → String) (room : Room)
    (reqR : RegisterReq) (reqS : StartReq) (reqD : RemoveReq) :
    ((registerRoute hash room reqR).2.status = room.status) ∧
    ((removeParticipantRoute hash room reqD).2.status = room.status) ∧
    ((startRoute hash room reqS).2.status = room.status ∨
      (startRoute hash room reqS).2.status = "started") ∧
    (room.status = "started" → (registerRoute hash room reqR).2 = room) ∧
    (room.status = "started" →
      (removeParticipantRoute hash room reqD).2 = room) ∧
    (room.status = "started" → (startRoute hash room reqS).2 = room) ∧
    (room.status = "started" →
      ∀ st, (startRoute hash room reqS).1 ≠ StartResp.ok st) ∧
    (room.status = "started" →
      reqS.hostUsername ≠ "" → reqS.hostPassword ≠ "" →
      reqS.encryptedAssignments ≠ none →
      hash (reqS.hostUsername ++ reqS.hostPassword) = room.hostLoginHash →
      startRoute hash room reqS
        = (.err 400 "Room has already started", room)) := by
  refine ⟨?_, ?_, ?_, ?_, ?_, ?_, ?_, ?_⟩
  · unfold registerRoute
    repeat' split
    all_goals rfl
  · unfold removeParticipantRoute
    repeat' split
    all_goals first | rfl | (dsimp only; split <;> rfl)
  · unfold startRoute
    repeat' split
    all_goals simp
  · intro h
    unfold registerRoute
    repeat' split
    all_goals first | rfl | (exfalso; simp_all)
  · intro h
    unfold removeParticipantRoute
    repeat' split
    all_goals first | rfl | (exfalso; simp_all)
  · intro h
    unfold startRoute
    repeat' split
    all_goals first | rfl | (exfalso; simp_all)
  · intro h st
    unfold startRoute
    repeat' split
    all_goals first | simp | (exfalso; simp_all)
  · intro h h1 h2 h3 h4
    unfold startRoute
    rw [if_neg (by simp [h1, h2, h3]), if_neg (by simp [h4]), if_pos h]

theorem c6_lifecycle_one_way_witness :
    roomStartedBob.status = "started" ∧
    (registerRoute idHash roomStartedBob ⟨"Carl", "cpw1", "PK", "S"⟩).2
      = roomStartedBob ∧
    (removeParticipantRoute idHash roomStartedBob
      ⟨"Host", "x", "Bob"⟩).2 = roomStartedBob ∧
    startRoute idHash roomStartedBob
      ⟨"HOST", "SECRET", some [("Bob", "CT2")]⟩
      = (.err 400 "Room has already started", roomStartedBob) :=
  ⟨rfl,
   (c6_lifecycle_one_way idHash roomStartedBob ⟨"Carl", "cpw1", "PK", "S"⟩
      ⟨"HOST", "SECRET", some [("Bob", "CT2")]⟩ ⟨"Host", "x", "Bob"⟩).2.2.2.1 rfl,
   (c6_lifecycle_one_way idHash roomStartedBob ⟨"Carl", "cpw1", "PK", "S"⟩
      ⟨"HOST", "SECRET", some [("Bob", "CT2")]⟩ ⟨"Host", "x", "Bob"⟩).2.2.2.2.1 rfl,
   (c6_lifecycle_one_way idHash roomStartedBob ⟨"Carl", "cpw1", "PK", "S"⟩
      ⟨"HOST", "SECRET", some [("Bob", "CT2")]⟩ ⟨"Host", "x", "Bob"⟩).2.2.2.2.2.2.2
      rfl (by decide) (by decide) (by decide) (by decide)⟩

/-- C7: whenever the derangement generator returns an assignment for a
participant list of size at least 2, that assignment is a permutation
of exactly the input list (so position-wise it induces a bijection
from givers to receivers over that participant set) with no position
mapped to itself. -/
theorem c7_assign_derangement {α : Type} [DecidableEq α] (l : List α)
    (rand : Nat → Nat → Nat) (out : List α) (hN : 2 ≤ l.length)
    (hout : assign l rand = some out) :
    out.Perm l ∧ ∀ i : Nat, i < l.length → l[i]? ≠ out[i]? := by
  have h := assignAux_spec l rand 10000 out hout
  refine ⟨h.1, ?_⟩
  intro i hi
  have hlen : out.length = l.length := h.1.length_eq
  exact hasFixedPoint_eq_false l out h.2 i hi (by omega)

theorem c7_assign_derangement_witness :
    2 ≤ (["A", "B"] : List String).length ∧
    assign (["A", "B"] : List String) (fun _ _ => 0) = some ["B", "A"] ∧
    ((["B", "A"] : List String).Perm ["A", "B"] ∧
      ∀ i : Nat, i < (["A", "B"] : List String).length →
        (["A", "B"] : List String)[i]? ≠ (["B", "A"] : List String)[i]?) :=
  ⟨by decide, by decide,
   c7_assign_derangement ["A", "B"] (fun _ _ => 0) ["B", "A"]
     (by decide) (by decide)⟩

/-- C4 counterexample: a Start whose submitted batch omits a
registered participant still succeeds and flips the status, leaving
that participant's ciphertext `null` — the server stamps only the
participants named in the request and never checks coverage. -/
theorem c4_start_leaves_missing_participant_null :
    startRoute idHash roomTwoOpen ⟨"host", "pw", some [("Alice", "CT1")]⟩
      = (.ok "started",
         { roomTwoOpen with
             participants := [⟨"Alice", "pa", some "CT1"⟩, ⟨"Bob", "pb", none⟩],
             status := "started" }) ∧
    (⟨"Bob", "pb", none⟩ : Participant) ∈
      (startRoute idHash roomTwoOpen
        ⟨"host", "pw", some [("Alice", "CT1")]⟩).2.participants ∧
    (⟨"Bob", "pb", none⟩ : Participant).encryptedAssignment = none := by
  decide

/-- C4 amended: when Start succeeds it flips the status to `started`
in the same handler invocation and stamps, for each submitted
`(username, ciphertext)` pair, the first participant with that
username; participants named in no submitted pair are carried over
unchanged (so they may retain a null ciphertext), and if the
submitted batch covers every participant (usernames being unique),
then after the Start no participant has a null ciphertext. -/
theorem c4_start_success_spec (hash : String → String) (room : Room)
    (req : StartReq) (st : String) (room' : Room)
    (h : startRoute hash room req = (.ok st, room')) :
    st = "started" ∧ room'.status = "started" ∧
    ∃ eas, req.encryptedAssignments = some eas ∧
      room'.participants = stampAssignments room.participants eas ∧
      (∀ p ∈ room.participants, (∀ e ∈ eas, e.1 ≠ p.username) →
        p ∈ room'.participants) ∧
      ((room.participants.map (·.username)).Nodup →
        (∀ p ∈ room.participants, ∃ ct, (p.username, ct) ∈ eas) →
        ∀ q ∈ room'.participants, q.encryptedAssignment ≠ none) := by
  unfold startRoute at h
  split at h
  · exact absurd h (by simp)
  · split at h
    · exact absurd h (by simp)
    · split at h
      · exact absurd h (by simp)
      · split at h
        · exact absurd h (by simp)
        · split at h
          · exact absurd h (by simp)
          · rename_i eas heas
            rw [Prod.mk.injEq] at h
            obtain ⟨hst, hroom⟩ := h
            obtain rfl : st = "started" := by
              cases hst; rfl
            obtain rfl : room' = { room with
                participants := stampAssignments room.participants eas,
                status := "started" } := hroom.symm
            refine ⟨rfl, rfl, eas, heas, rfl, ?_, ?_⟩
            · intro p hp hne
              exact stampAssignments_mem_of_not_named eas
                room.participants p hp hne
            · intro hnd hcov q hq
              obtain ⟨i, hqi⟩ := List.mem_iff_getElem?.mp hq
              have hps : ∃ p : Participant,
                  room.participants[i]? = some p ∧ p.username = q.username := by
                rcases stampAssignments_getElem? eas room.participants i with
                  h2 | ⟨p, ct, hp, hs⟩
                · exact ⟨q, by rw [← h2]; exact hqi, rfl⟩
                · refine ⟨p, hp, ?_⟩
                  rw [hqi] at hs
                  obtain rfl : q = { p with encryptedAssignment := some ct } := by
                    have := hs.symm
                    simpa using this.symm
                  rfl
              obtain ⟨p, hpi, hpu⟩ := hps
              obtain ⟨ct, hct⟩ := hcov p (List.getElem?_mem hpi)
              obtain ⟨q2, hq2, hq2nn⟩ :=
                stampAssignments_covered eas room.participants i p hnd hpi ⟨ct, hct⟩
              rw [hqi] at hq2
              obtain rfl : q = q2 := by
                have := hq2.symm
                simpa using this.symm
              exact hq2nn

theorem c4_start_success_spec_witness :
    startRoute idHash roomTwoOpen
      ⟨"host", "pw", some [("Alice", "CA"), ("Bob", "CB")]⟩
      = (.ok "started",
         { roomTwoOpen with
             participants := [⟨"Alice", "pa", some "CA"⟩,
                              ⟨"Bob", "pb", some "CB"⟩],
             status := "started" }) ∧
    ({ roomTwoOpen with
         participants := [⟨"Alice", "pa", some "CA"⟩,
                          ⟨"Bob", "pb", some "CB"⟩],
         status := "started" } : Room).status = "started" :=
  ⟨by decide,
   (c4_start_success_spec idHash roomTwoOpen
     ⟨"host", "pw", some [("Alice", "CA"), ("Bob", "CB")]⟩ "started"
     { roomTwoOpen with
         participants := [⟨"Alice", "pa", some "CA"⟩,
                          ⟨"Bob", "pb", some "CB"⟩],
         status := "started" } (by decide)).2.1⟩

/-- C10 counterexample: a submitted username containing a stripped
character need not register successfully at all — `a<` sanitizes to
the single character `a`, so registration is rejected by the length
check instead of succeeding under the altered name. -/
theorem c10_bad_username_can_fail_registration :
    (∃ c ∈ "a<".data, badChar c = true) ∧
    registerRoute idHash roomOpen0 ⟨"a<", "pass1", "PK", "S"⟩
      = (.err 400 "Username must be at least 2 characters", roomOpen0) := by
  constructor
  · exact ⟨'<', by decide, by decide⟩
  · decide

/-- C10 amended: registration stores the sanitized form (trimmed,
truncated to 50 characters, with `<`, `>`, `"`, `'`, `&` removed)
while login looks the raw submitted string up by exact equality; so
whenever a registration with a username containing a stripped
character or surrounding whitespace succeeds as a new participant
(and no previously stored name equals the raw string), the record is
stored under the sanitized name and a login with the same raw
credentials fails with 404 `User not found in this room`. -/
theorem c10_register_sanitized_login_raw (hash : String → String)
    (room : Room) (req : RegisterReq) (su : String) (room' : Room)
    (hbad : (∃ c ∈ req.username.data, badChar c = true) ∨
            trimChars req.username.data ≠ req.username.data)
    (hreg : registerRoute hash room req = (.registered su, room'))
    (hold : ∀ p ∈ room.participants, p.username ≠ req.username) :
    su = sanitizeString req.username 50 ∧
    room'.participants
      = room.participants ++ [⟨su, hash req.password, none⟩] ∧
    loginRoute hash room' req.username req.password
      = (404, [("error", JV.s "User not found in this room")]) := by
  unfold registerRoute at hreg
  split at hreg
  · exact absurd hreg (by simp)
  · rename_i hmiss
    split at hreg
    · exact absurd hreg (by simp)
    · split at hreg
      · exact absurd hreg (by simp)
      · exact absurd hreg (by simp)
      · rename_i su0 _ hvu hvp
        split at hreg
        · exact absurd hreg (by simp)
        · split at hreg
          · split at hreg
            · exact absurd hreg (by simp)
            · exact absurd hreg (by simp)
          · rw [Prod.mk.injEq] at hreg
            obtain ⟨hsu, hroom⟩ := hreg
            have heq : su0 = su := by cases hsu; rfl
            subst heq
            obtain rfl : room' = { room with participants :=
                room.participants ++ [⟨su0, hash req.password, none⟩] } :=
              hroom.symm
            have hsan : su0 = sanitizeString req.username 50 := by
              simp only [validateUsername] at hvu
              split at hvu
              · exact absurd hvu (by simp)
              · cases hvu; rfl
            have hne : su0 ≠ req.username := by
              rw [hsan]
              exact sanitizeString_ne req.username hbad
            refine ⟨hsan, rfl, ?_⟩
            have hfind : (room.participants ++
                ([⟨su0, hash req.password, none⟩] : List Participant)).find?
                (fun x : Participant => x.username = req.username) = none := by
              rw [List.find?_eq_none]
              intro x hx
              rcases List.mem_append.mp hx with hx2 | hx2
              · simpa using hold x hx2
              · obtain rfl : x = ⟨su0, hash req.password, none⟩ := by
                  simpa using hx2
                simpa using hne
            simp only [loginRoute, if_neg hmiss]
            simp only [show ({ room with participants :=
                room.participants ++ [⟨su0, hash req.password, none⟩] }
                  : Room).participants
                = room.participants ++ [⟨su0, hash req.password, none⟩]
              from rfl, hfind]

theorem c10_register_sanitized_login_raw_witness :
    ((∃ c ∈ ("Al<ice" : String).data, badChar c = true) ∨
      trimChars ("Al<ice" : String).data ≠ ("Al<ice" : String).data) ∧
    registerRoute idHash roomOpen0 ⟨"Al<ice", "pass1", "PK", "S"⟩
      = (.registered "Alice",
         { roomOpen0 with participants := [⟨"Alice", "pass1", none⟩] }) ∧
    loginRoute idHash
      { roomOpen0 with participants := [⟨"Alice", "pass1", none⟩] }
      "Al<ice" "pass1"
      = (404, [("error", JV.s "User not found in this room")]) :=
  ⟨Or.inl ⟨'<', by decide, by decide⟩, by decide,
   (c10_register_sanitized_login_raw idHash roomOpen0
     ⟨"Al<ice", "pass1", "PK", "S"⟩ "Alice"
     { roomOpen0 with participants := [⟨"Alice", "pass1", none⟩] }
     (Or.inl ⟨'<', by decide, by decide⟩) (by decide)
     (by intro p hp; exact absurd hp (List.not_mem_nil p))).2.2⟩

/-- C5: for every plaintext within the OAEP length limit and every
keypair on which the RSA primitives invert each other, decrypting an
encryption returns exactly the plaintext, provided the very same hash
drives the label hash and the mask generation function on both the
encrypt and the decrypt side (the source pins both to SHA-256 through
the matched `md`/`mgf1` options; here that pinning is the shared
`hash` parameter of the two directions). -/
theorem c5_oaep_roundtrip (hash : List Nat → List Nat)
    (hLen k n e d : Nat) (seed m : List Nat) (c64 : String)
    (hhash : ∀ x, (hash x).length = hLen)
    (hhb : ∀ x b, b ∈ hash x → b < 256)
    (h1 : 1 ≤ hLen)
    (hseed : seed.length = hLen) (hs : ∀ b ∈ seed, b < 256)
    (hm : ∀ b ∈ m, b < 256)
    (hk : m.length + 2 * hLen + 2 ≤ k)
    (hn1 : 256 ^ (k - 1) ≤ n) (hn2 : n ≤ 256 ^ k)
    (hinv : ∀ msg, msg < 256 ^ (k - 1) → rsadp n d (rsaep n e msg) = msg)
    (henc : encryptWithPublicKey hash hLen k n e seed m = some c64) :
    decryptWithPrivateKey hash hLen k n d c64 = some m :=
  decrypt_encrypt_roundtrip hash hLen k n e d seed m c64 hhash hhb h1
    hseed hs hm hk hn1 hn2 hinv henc

theorem c5_oaep_roundtrip_witness :
    encryptWithPublicKey (fun _ => [0]) 1 5 (256 ^ 5) 1 [9] [77]
      = some "AAkAAU0=" ∧
    decryptWithPrivateKey (fun _ => [0]) 1 5 (256 ^ 5) 1 "AAkAAU0="
      = some [77] :=
  ⟨by decide,
   c5_oaep_roundtrip (fun _ => [0]) 1 5 (256 ^ 5) 1 1 [9] [77] "AAkAAU0="
     (fun _ => rfl)
     (by intro x b hb; simp only [List.mem_singleton] at hb; omega)
     (by omega) rfl (by decide) (by decide) (by decide)
     (by norm_num) (by norm_num)
     (by
       intro msg hlt
       have h5 : msg < 256 ^ 5 := lt_trans hlt (by norm_num)
       simp only [rsaep, rsadp, pow_one, Nat.mod_eq_of_lt h5])
     (by decide)⟩

/-- C8: every failure of `decryptWithPrivateKey` is the
distinguishable value `none`, never an escaping exception — a
non-base64 ciphertext fails at decoding, any OAEP consistency failure
(for instance a nonzero leading byte, the signature of a wrong key or
corrupted ciphertext) fails at decoding of the padding, and any
successful output is a plaintext that passed the full OAEP
consistency check. -/
theorem c8_decrypt_failures_distinguishable (hash : List Nat → List Nat)
    (hLen k n d : Nat) (s : String) :
    (decode64 s = none → decryptWithPrivateKey hash hLen k n d s = none) ∧
    (∀ bytes, decode64 s = some bytes →
      eme_oaep_decode hash hLen (i2osp (rsadp n d (os2ip bytes)) k) = none →
      decryptWithPrivateKey hash hLen k n d s = none) ∧
    (∀ em : List Nat, em[0]? ≠ some 0 → eme_oaep_decode hash hLen em = none) ∧
    (∀ m, decryptWithPrivateKey hash hLen k n d s = some m →
      ∃ bytes, decode64 s = some bytes ∧
        eme_oaep_decode hash hLen
          (i2osp (rsadp n d (os2ip bytes)) k) = some m) := by
  refine ⟨?_, ?_, ?_, ?_⟩
  · intro h
    rw [decryptWithPrivateKey, h, Option.none_bind]
  · intro bytes h1 h2
    rw [decryptWithPrivateKey, h1, Option.some_bind, h2]
  · intro em h
    match em with
    | [] => rfl
    | y :: rest =>
      simp only [List.getElem?_cons_zero, ne_eq, Option.some.injEq] at h
      rw [eme_oaep_decode]
      simp only [if_pos (show y ≠ 0 from h)]
  · intro m h
    rw [decryptWithPrivateKey] at h
    cases hdec : decode64 s with
    | none => rw [hdec, Option.none_bind] at h; exact absurd h (by simp)
    | some bytes =>
      rw [hdec, Option.some_bind] at h
      exact ⟨bytes, rfl, h⟩

theorem c8_decrypt_failures_distinguishable_witness :
    decode64 "!!!" = none ∧
    decryptWithPrivateKey (fun _ => [0]) 1 5 (256 ^ 5) 1 "!!!" = none ∧
    (([5, 6] : List Nat)[0]? ≠ some 0) ∧
    eme_oaep_decode (fun _ => [0]) 1 [5, 6] = none :=
  ⟨by decide,
   (c8_decrypt_failures_distinguishable (fun _ => [0]) 1 5 (256 ^ 5) 1
     "!!!").1 (by decide),
   by decide,
   (c8_decrypt_failures_distinguishable (fun _ => [0]) 1 5 (256 ^ 5) 1
     "!!!").2.2.1 [5, 6] (by decide)⟩
